import Mathlib

/-!
Shallow embedding of the transactional single-column key-value store in
src/transakce.py: class Column (a dict of committed values plus a staging
buffer for a single-depth transaction) and class Database (a collection of
Columns stored as instance attributes).  Python dicts are modelled as
association lists with unique keys; operations that can raise return the
state at raise time together with the raised error.
-/

namespace Transakce

/-- Errors the Python code can raise: OverwriteNotAllowed from Column.insert,
KeyError from the dict.pop calls in Column.commit, and AttributeError from
attribute lookup on a Database (the NoSuchColumn condition of the spec). -/
inductive PyError where
  | overwriteNotAllowed (key : Int)
  | keyError (key : Int)
  | attributeError (attrName : String)
  deriving DecidableEq, Repr

/-- Lookup in an association list modelling a Python dict.  The first binding
for the key wins; dicts built with dSet and dRemove keep keys unique, as
Python dicts do. -/
def dLookup {α β : Type} [DecidableEq α] (d : List (α × β)) (k : α) : Option β :=
  match d with
  | [] => none
  | (k2, v) :: rest => if k2 = k then some v else dLookup rest k

/-- Python membership test, as in key in d.keys(). -/
def dContains {α β : Type} [DecidableEq α] (d : List (α × β)) (k : α) : Bool :=
  (dLookup d k).isSome

/-- Python assignment d[k] = v: replace the binding in place if the key is
already bound, otherwise append the new binding at the end. -/
def dSet {α β : Type} [DecidableEq α] (d : List (α × β)) (k : α) (v : β) : List (α × β) :=
  match d with
  | [] => [(k, v)]
  | (k2, v2) :: rest => if k2 = k then (k, v) :: rest else (k2, v2) :: dSet rest k v

/-- Python d.update(vs): set every binding of vs, in order. -/
def dUpdate {α β : Type} [DecidableEq α] (d : List (α × β)) (vs : List (α × β)) :
    List (α × β) :=
  vs.foldl (fun d2 kv => dSet d2 kv.1 kv.2) d

/-- State effect of Python d.pop(k) when the key is present: drop the binding. -/
def dRemove {α β : Type} [DecidableEq α] (d : List (α × β)) (k : α) : List (α × β) :=
  match d with
  | [] => []
  | (k2, v2) :: rest => if k2 = k then rest else (k2, v2) :: dRemove rest k

/-- State of a Column (src/transakce.py, Column.__init__): the committed
dict vals (self._vals), the transaction flag, the staged-insert dict
trans_dict and the staged-delete list to_del. -/
structure Column where
  name : String
  vals : List (Int × Int)
  transaction_marker : Bool
  trans_dict : List (Int × Int)
  to_del : List Int
  deriving DecidableEq, Repr

/-- Column.__init__(name). -/
def Column.init (name : String) : Column :=
  { name := name, vals := [], transaction_marker := false, trans_dict := [], to_del := [] }

/-- Column.insert(values): the for-loop first checks every key of the batch
against the committed dict, raising OverwriteNotAllowed at the first key that
is already committed, before any mutation; only then is the batch merged into
trans_dict (transaction on) or vals (transaction off).  The result pairs the
state at return or raise time with the raised error, if any. -/
def Column.insert (c : Column) (values : List (Int × Int)) : Column × Option PyError :=
  match values.find? (fun kv => dContains c.vals kv.1) with
  | some kv => (c, some (PyError.overwriteNotAllowed kv.1))
  | none =>
    if c.transaction_marker then
      ({ c with trans_dict := dUpdate c.trans_dict values }, none)
    else
      ({ c with vals := dUpdate c.vals values }, none)

/-- One iteration of the loop body of Column.delete for a single key.  The
transaction flag is tested per key here; the loop never changes the flag, so
this agrees with the Python code, which tests it once outside the loop. -/
def Column.deleteKey (c : Column) (k : Int) : Column :=
  if c.transaction_marker then
    if dContains c.trans_dict k then { c with trans_dict := dRemove c.trans_dict k }
    else if dContains c.vals k then { c with to_del := c.to_del ++ [k] }
    else c
  else
    if dContains c.vals k then { c with vals := dRemove c.vals k } else c

/-- Column.delete(keys): apply the loop body to each key in order.  Never
raises. -/
def Column.delete (c : Column) (keys : List Int) : Column :=
  keys.foldl Column.deleteKey c

/-- Column.mean(): arithmetic mean of the committed values; none models the
undefined result the pandas aggregation yields on an empty column. -/
def Column.mean (c : Column) : Option Rat :=
  if c.vals.isEmpty then none
  else some ((c.vals.map (fun kv => (kv.2 : Rat))).sum / (c.vals.length : Rat))

/-- Column.transaction(). -/
def Column.transaction (c : Column) : Column :=
  { c with transaction_marker := true }

/-- Column.rollback(): clear both staging buffers, drop the flag. -/
def Column.rollback (c : Column) : Column :=
  { c with trans_dict := [], to_del := [], transaction_marker := false }

/-- The pop loop of Column.commit: pop each key of ks from d in order.
Python dict.pop without a default raises KeyError on an absent key; the
returned state keeps the pops already applied before the raise. -/
def popMany (d : List (Int × Int)) (ks : List Int) : List (Int × Int) × Option PyError :=
  match ks with
  | [] => (d, none)
  | k :: rest =>
    if dContains d k then popMany (dRemove d k) rest
    else (d, some (PyError.keyError k))

/-- Column.commit(): merge trans_dict into vals, then pop every key of to_del
from vals; on success clear both staging buffers and drop the flag.  A
KeyError in the pop loop leaves the buffers and the flag untouched and the
committed dict partially popped, exactly as the Python code does. -/
def Column.commit (c : Column) : Column × Option PyError :=
  match popMany (dUpdate c.vals c.trans_dict) c.to_del with
  | (vals2, some e) => ({ c with vals := vals2 }, some e)
  | (vals2, none) =>
    ({ name := c.name, vals := vals2, transaction_marker := false,
       trans_dict := [], to_del := [] }, none)

/-- The public mutating operations of a Column, used to describe reachable
states; for the fallible ones the resulting state is the state at return or
raise time. -/
inductive Op where
  | insert (values : List (Int × Int))
  | delete (keys : List Int)
  | transaction
  | rollback
  | commit
  deriving DecidableEq, Repr

/-- State reached after one operation. -/
def Column.step (c : Column) (op : Op) : Column :=
  match op with
  | Op.insert values => (c.insert values).1
  | Op.delete keys => c.delete keys
  | Op.transaction => c.transaction
  | Op.rollback => c.rollback
  | Op.commit => (c.commit).1

/-- State reached after a sequence of operations. -/
def runOps (c : Column) (ops : List Op) : Column :=
  ops.foldl Column.step c

/-- Operations that only stage work while a transaction is open. -/
def Op.isStaging : Op → Bool
  | Op.insert _ => true
  | Op.delete _ => true
  | _ => false

/-- An attribute stored in a Database instance dict: the _vars dict, the
tables list, or an owned Column. -/
inductive Attr where
  | vars (m : List (String × List (Int × Int)))
  | tables (l : List String)
  | col (c : Column)
  deriving DecidableEq, Repr

/-- A Database is its instance attribute dict (self.__dict__ in Python). -/
structure Database where
  dict : List (String × Attr)
  deriving DecidableEq, Repr

/-- Database.__init__(tables): set self._vars = {}, then self.tables = tables,
then one Column per table name; a table name that collides with an earlier
attribute overwrites it, as Python attribute assignment does. -/
def Database.init (tables : List String) : Database :=
  { dict :=
      tables.foldl (fun d a => dSet d a (Attr.col (Column.init a)))
        (dSet (dSet [] "_vars" (Attr.vars [])) "tables" (Attr.tables tables)) }

/-- Names of the methods the Column class defines; Database extends Column,
so Python attribute access on a Database falls back to these as inherited
bound methods whenever the instance dict has no binding for the name.  The
remaining class attributes reachable on a Database instance (from Column,
Database and object) are all dunder names, delimited by double underscores:
__init__, __str__, __getitem__, __doc__ and the object protocol. -/
def columnMethodNames : List String :=
  ["insert", "delete", "mean", "transaction", "rollback", "commit"]

/-- Whether an attribute name starts with a double underscore: the names of
the object protocol, which the lookup model does not cover. -/
def isDunderName (a : String) : Bool :=
  decide (a.data.take 2 = ['_', '_'])

/-- Result of attribute access on a Database: an attribute stored in the
instance dict, or a bound method inherited from the class. -/
inductive LookupResult where
  | attr (a : Attr)
  | boundMethod (methodName : String)
  deriving DecidableEq, Repr

/-- Attribute lookup db.attrName on a Database: the instance dict is
consulted first (it shadows the inherited methods, which are non-data
descriptors); an absent name falls back to the class, yielding a bound
method for the Column method names, and otherwise raises AttributeError (the
NoSuchColumn condition of the spec).  Dunder attributes of the object
protocol are outside this model: lookup is characterized only for names that
do not start with a double underscore. -/
def Database.lookup (db : Database) (attrName : String) : Except PyError LookupResult :=
  match dLookup db.dict attrName with
  | some a => Except.ok (LookupResult.attr a)
  | none =>
    if attrName ∈ columnMethodNames then Except.ok (LookupResult.boundMethod attrName)
    else Except.error (PyError.attributeError attrName)

/-- The loop of Database.__str__: for each var in self.tables it runs
self._vars.update with the binding var to self.__dict__[var]._vals, writing
the updated _vars dict back into the instance dict; an attribute that is
missing or of the wrong shape raises. -/
def renderLoop (db : Database) (ts : List String) : Database × Option PyError :=
  match ts with
  | [] => (db, none)
  | var :: rest =>
    match dLookup db.dict "_vars", dLookup db.dict var with
    | some (Attr.vars m), some (Attr.col c) =>
      renderLoop { dict := dSet db.dict "_vars" (Attr.vars (dSet m var c.vals)) } rest
    | _, _ => (db, some (PyError.attributeError var))

/-- Database.__str__: iterate self.tables updating self._vars, then hand the
resulting _vars dict to the external tabular formatter.  The formatting is an
external utility; the modelled observable effect is the state change and the
data handed over, which is the final _vars attribute. -/
def Database.render (db : Database) : Database × Option PyError :=
  match dLookup db.dict "tables" with
  | some (Attr.tables ts) => renderLoop db ts
  | _ => (db, some (PyError.attributeError "tables"))

/-- Contents of the _vars attribute, empty for anything else. -/
def getVars : Option Attr → List (String × List (Int × Int))
  | some (Attr.vars m) => m
  | _ => []

/-- Committed values of a column attribute, empty for anything else. -/
def attrVals : Option Attr → List (Int × Int)
  | some (Attr.col c) => c.vals
  | _ => []

/-- Whether an attribute slot holds the _vars dict. -/
def isVarsAttr : Option Attr → Bool
  | some (Attr.vars _) => true
  | _ => false

/-- Whether an attribute slot holds a Column. -/
def isColAttr : Option Attr → Bool
  | some (Attr.col _) => true
  | _ => false

/-- The name-to-committed-values projection that one pass of the render loop
folds into an initial _vars dict m, reading the columns of db. -/
def projectVars (db : Database) (m : List (String × List (Int × Int))) (ts : List String) :
    List (String × List (Int × Int)) :=
  ts.foldl (fun m2 var => dSet m2 var (attrVals (dLookup db.dict var))) m

/-- Keys bound in an association list. -/
def dKeys {α β : Type} (d : List (α × β)) : List α :=
  d.map Prod.fst

/-- Merge of staged inserts followed by removal of every staged-delete key:
the net effect a successful commit applies to the committed dict. -/
def removeKeys (d : List (Int × Int)) (ks : List Int) : List (Int × Int) :=
  d.filter (fun kv => !(decide (kv.1 ∈ ks)))

/-- Invariant of the spec: outside a transaction both staging buffers are
empty. -/
def TransInv (c : Column) : Prop :=
  c.transaction_marker = false → c.trans_dict = [] ∧ c.to_del = []

theorem dLookup_dSet_self {α β : Type} [DecidableEq α] (d : List (α × β)) (k : α) (v : β) :
    dLookup (dSet d k v) k = some v := by
  induction d with
  | nil => simp [dSet, dLookup]
  | cons hd tl ih =>
    obtain ⟨k2, v2⟩ := hd
    by_cases h : k2 = k
    · simp [dSet, dLookup, h]
    · simp [dSet, dLookup, h, ih]

theorem dLookup_dSet_ne {α β : Type} [DecidableEq α] (d : List (α × β)) (k a : α) (v : β)
    (h : a ≠ k) : dLookup (dSet d k v) a = dLookup d a := by
  have h2 : ¬k = a := fun h3 => h h3.symm
  induction d with
  | nil => simp [dSet, dLookup, h2]
  | cons hd tl ih =>
    obtain ⟨k2, v2⟩ := hd
    by_cases h3 : k2 = k
    · subst h3
      simp [dSet, dLookup, h2]
    · simp [dSet, dLookup, h3, ih]

theorem dLookup_dRemove_ne {α β : Type} [DecidableEq α] (d : List (α × β)) (k a : α)
    (h : a ≠ k) : dLookup (dRemove d k) a = dLookup d a := by
  have h2 : ¬k = a := fun h3 => h h3.symm
  induction d with
  | nil => simp [dRemove]
  | cons hd tl ih =>
    obtain ⟨k2, v2⟩ := hd
    by_cases h3 : k2 = k
    · subst h3
      simp [dRemove, dLookup, h2]
    · simp [dRemove, dLookup, h3, ih]

theorem dLookup_eq_none_of_not_mem_dKeys {α β : Type} [DecidableEq α] (d : List (α × β))
    (k : α) (h : k ∉ dKeys d) : dLookup d k = none := by
  induction d with
  | nil => simp [dLookup]
  | cons hd tl ih =>
    obtain ⟨k2, v2⟩ := hd
    simp only [dKeys, List.map_cons, List.mem_cons, not_or] at h
    have h2 : ¬k2 = k := fun h3 => h.1 h3.symm
    simp [dLookup, h2, ih (by simpa [dKeys] using h.2)]

theorem not_mem_dKeys_of_dLookup_eq_none {α β : Type} [DecidableEq α] (d : List (α × β))
    (k : α) (h : dLookup d k = none) : k ∉ dKeys d := by
  induction d with
  | nil => simp [dKeys]
  | cons hd tl ih =>
    obtain ⟨k2, v2⟩ := hd
    by_cases h2 : k2 = k
    · simp [dLookup, h2] at h
    · simp only [dLookup, if_neg h2] at h
      simp only [dKeys, List.map_cons, List.mem_cons, not_or]
      exact ⟨fun h3 => h2 h3.symm, by simpa [dKeys] using ih h⟩

theorem mem_dKeys_iff {α β : Type} [DecidableEq α] (d : List (α × β)) (k : α) :
    k ∈ dKeys d ↔ dLookup d k ≠ none := by
  constructor
  · intro h h2
    exact not_mem_dKeys_of_dLookup_eq_none d k h2 h
  · intro h
    by_contra h2
    exact h (dLookup_eq_none_of_not_mem_dKeys d k h2)

theorem dLookup_dRemove_self {α β : Type} [DecidableEq α] (d : List (α × β)) (k : α)
    (h : (dKeys d).Nodup) : dLookup (dRemove d k) k = none := by
  induction d with
  | nil => simp [dRemove, dLookup]
  | cons hd tl ih =>
    obtain ⟨k2, v2⟩ := hd
    simp only [dKeys, List.map_cons, List.nodup_cons] at h
    by_cases h2 : k2 = k
    · subst h2
      simp [dRemove, dLookup_eq_none_of_not_mem_dKeys tl k2 (by simpa [dKeys] using h.1)]
    · simp [dRemove, dLookup, h2, ih h.2]

theorem mem_dKeys_dSet {α β : Type} [DecidableEq α] (d : List (α × β)) (k a : α) (v : β)
    (h : a ∈ dKeys (dSet d k v)) : a ∈ dKeys d ∨ a = k := by
  by_cases h2 : a = k
  · exact Or.inr h2
  · left
    rw [mem_dKeys_iff] at h ⊢
    rwa [dLookup_dSet_ne d k a v h2] at h

theorem dKeys_nodup_dSet {α β : Type} [DecidableEq α] (d : List (α × β)) (k : α) (v : β)
    (h : (dKeys d).Nodup) : (dKeys (dSet d k v)).Nodup := by
  induction d with
  | nil => simp [dSet, dKeys]
  | cons hd tl ih =>
    obtain ⟨k2, v2⟩ := hd
    simp only [dKeys, List.map_cons, List.nodup_cons] at h
    by_cases h2 : k2 = k
    · subst h2
      have h3 : dSet ((k2, v2) :: tl) k2 v = (k2, v) :: tl := by simp [dSet]
      rw [h3]
      simpa [dKeys, List.nodup_cons] using h
    · have h3 : dSet ((k2, v2) :: tl) k v = (k2, v2) :: dSet tl k v := by simp [dSet, h2]
      rw [h3]
      simp only [dKeys, List.map_cons, List.nodup_cons]
      refine ⟨fun hmem => ?_, by simpa [dKeys] using ih h.2⟩
      rcases mem_dKeys_dSet tl k k2 v (by simpa [dKeys] using hmem) with h4 | h4
      · exact h.1 (by simpa [dKeys] using h4)
      · exact h2 h4

theorem dKeys_nodup_dUpdate {α β : Type} [DecidableEq α] (d vs : List (α × β))
    (h : (dKeys d).Nodup) : (dKeys (dUpdate d vs)).Nodup := by
  induction vs generalizing d with
  | nil => simpa [dUpdate] using h
  | cons hd tl ih =>
    simp only [dUpdate, List.foldl_cons]
    exact ih (dSet d hd.1 hd.2) (dKeys_nodup_dSet d hd.1 hd.2 h)

theorem dKeys_nodup_dRemove {α β : Type} [DecidableEq α] (d : List (α × β)) (k : α)
    (h : (dKeys d).Nodup) : (dKeys (dRemove d k)).Nodup := by
  induction d with
  | nil => simp [dRemove, dKeys]
  | cons hd tl ih =>
    obtain ⟨k2, v2⟩ := hd
    simp only [dKeys, List.map_cons, List.nodup_cons] at h
    by_cases h2 : k2 = k
    · subst h2
      have h3 : dRemove ((k2, v2) :: tl) k2 = tl := by simp [dRemove]
      rw [h3]
      simpa [dKeys] using h.2
    · have h3 : dRemove ((k2, v2) :: tl) k = (k2, v2) :: dRemove tl k := by simp [dRemove, h2]
      rw [h3]
      simp only [dKeys, List.map_cons, List.nodup_cons]
      refine ⟨fun hmem => ?_, by simpa [dKeys] using ih h.2⟩
      have h4 : k2 ∈ dKeys (dRemove tl k) := by simpa [dKeys] using hmem
      rw [mem_dKeys_iff] at h4
      by_cases h5 : k2 = k
      · exact h2 h5
      · rw [dLookup_dRemove_ne tl k k2 h5] at h4
        exact h.1 (by simpa [dKeys] using (mem_dKeys_iff tl k2).mpr h4)

theorem dContains_eq_false_iff {α β : Type} [DecidableEq α] (d : List (α × β)) (k : α) :
    dContains d k = false ↔ dLookup d k = none := by
  cases h : dLookup d k <;> simp [dContains, h]

theorem dContains_dUpdate_of {α β : Type} [DecidableEq α] (d vs : List (α × β)) (k : α)
    (h : dContains d k = true) : dContains (dUpdate d vs) k = true := by
  induction vs generalizing d with
  | nil => simpa [dUpdate] using h
  | cons hd tl ih =>
    simp only [dUpdate, List.foldl_cons]
    apply ih
    by_cases h2 : k = hd.1
    · simp [dContains, h2, dLookup_dSet_self]
    · simpa [dContains, dLookup_dSet_ne d hd.1 k hd.2 h2] using h

theorem dContains_dUpdate_false {α β : Type} [DecidableEq α] (d vs : List (α × β)) (k : α)
    (h : dContains d k = false) (h2 : k ∉ dKeys vs) : dContains (dUpdate d vs) k = false := by
  induction vs generalizing d with
  | nil => simpa [dUpdate] using h
  | cons hd tl ih =>
    simp only [dKeys, List.map_cons, List.mem_cons, not_or] at h2
    simp only [dUpdate, List.foldl_cons]
    have h3 : dContains (dSet d hd.1 hd.2) k = false := by
      simpa [dContains, dLookup_dSet_ne d hd.1 k hd.2 h2.1] using h
    simpa [dUpdate] using ih (dSet d hd.1 hd.2) h3 (by simpa [dKeys] using h2.2)

theorem dLookup_dRemove_none {α β : Type} [DecidableEq α] (d : List (α × β)) (k : α)
    (h : dLookup d k = none) : dLookup (dRemove d k) k = none := by
  induction d with
  | nil => simp [dRemove, dLookup]
  | cons hd tl ih =>
    obtain ⟨k2, v2⟩ := hd
    by_cases h2 : k2 = k
    · simp [dLookup, h2] at h
    · simp only [dLookup, if_neg h2] at h
      simp [dRemove, dLookup, h2, ih h]

theorem dContains_dRemove_false {α β : Type} [DecidableEq α] (d : List (α × β)) (k a : α)
    (h : dContains d a = false) : dContains (dRemove d k) a = false := by
  rw [dContains_eq_false_iff] at h ⊢
  by_cases h2 : a = k
  · subst h2
    exact dLookup_dRemove_none d a h
  · rw [dLookup_dRemove_ne d k a h2]
    exact h

theorem dContains_popMany_false (d : List (Int × Int)) (ks : List Int) (k : Int)
    (h : dContains d k = false) : dContains (popMany d ks).1 k = false := by
  induction ks generalizing d with
  | nil => simpa [popMany] using h
  | cons hd tl ih =>
    by_cases h2 : dContains d hd = true
    · simp only [popMany, if_pos h2]
      exact ih (dRemove d hd) (dContains_dRemove_false d hd k h)
    · simp only [popMany, if_neg h2]
      simpa using h

theorem dSet_dLookup_self {α β : Type} [DecidableEq α] (d : List (α × β)) (k : α) (v : β)
    (h : dLookup d k = some v) : dSet d k v = d := by
  induction d with
  | nil => simp [dLookup] at h
  | cons hd tl ih =>
    obtain ⟨k2, v2⟩ := hd
    by_cases h2 : k2 = k
    · subst h2
      have h3 : v2 = v := by simpa [dLookup] using h
      subst h3
      simp [dSet]
    · simp only [dLookup, if_neg h2] at h
      simp [dSet, h2, ih h]

theorem dSet_dSet {α β : Type} [DecidableEq α] (d : List (α × β)) (k : α) (v1 v2 : β) :
    dSet (dSet d k v1) k v2 = dSet d k v2 := by
  induction d with
  | nil => simp [dSet]
  | cons hd tl ih =>
    obtain ⟨k2, v3⟩ := hd
    by_cases h2 : k2 = k
    · simp [dSet, h2]
    · simp [dSet, h2, ih]

theorem dRemove_filter (d : List (Int × Int)) (k : Int) (rest : List Int)
    (h : (dKeys d).Nodup) :
    (dRemove d k).filter (fun kv => !(decide (kv.1 ∈ rest))) =
      d.filter (fun kv => !(decide (kv.1 ∈ k :: rest))) := by
  induction d with
  | nil => simp [dRemove]
  | cons hd tl ih =>
    obtain ⟨k2, v2⟩ := hd
    simp only [dKeys, List.map_cons, List.nodup_cons] at h
    by_cases h2 : k2 = k
    · subst h2
      have h3 : dRemove ((k2, v2) :: tl) k2 = tl := by simp [dRemove]
      rw [h3]
      have h4 : ((k2, v2) :: tl).filter (fun kv => !(decide (kv.1 ∈ k2 :: rest))) =
          tl.filter (fun kv => !(decide (kv.1 ∈ k2 :: rest))) := by
        simp [List.filter_cons]
      rw [h4]
      apply List.filter_congr
      intro kv hkv
      have h5 : kv.1 ≠ k2 := by
        intro h6
        exact h.1 (h6 ▸ List.mem_map_of_mem Prod.fst hkv)
      simp [List.mem_cons, h5]
    · have h3 : dRemove ((k2, v2) :: tl) k = (k2, v2) :: dRemove tl k := by
        simp [dRemove, h2]
      rw [h3]
      by_cases h4 : k2 ∈ rest
      · have h5 : k2 ∈ k :: rest := List.mem_cons_of_mem k h4
        simp only [List.filter_cons, h4, h5, decide_True, Bool.not_true, if_false]
        exact ih h.2
      · have h5 : k2 ∉ k :: rest := by
          simp [List.mem_cons, h2, h4]
        simp only [List.filter_cons]
        rw [if_pos (by simpa using h4), if_pos (by simpa using h5)]
        rw [ih h.2]

theorem popMany_eq (d : List (Int × Int)) (ks : List Int)
    (hd : (dKeys d).Nodup) (hks : ks.Nodup)
    (hmem : ∀ k ∈ ks, dContains d k = true) :
    popMany d ks = (removeKeys d ks, none) := by
  induction ks generalizing d with
  | nil =>
    simp only [popMany, removeKeys]
    rw [List.filter_eq_self.mpr]
    intro kv _
    simp
  | cons k rest ih =>
    simp only [List.nodup_cons] at hks
    have hk : dContains d k = true := hmem k (List.mem_cons_self k rest)
    simp only [popMany, hk, if_true]
    have h2 : ∀ k2 ∈ rest, dContains (dRemove d k) k2 = true := by
      intro k2 hk2
      have hne : k2 ≠ k := fun he => hks.1 (he ▸ hk2)
      have h3 := hmem k2 (List.mem_cons_of_mem k hk2)
      simpa [dContains, dLookup_dRemove_ne d k k2 hne] using h3
    rw [ih (dRemove d k) (dKeys_nodup_dRemove d k hd) hks.2 h2]
    simp only [removeKeys]
    rw [dRemove_filter d k rest hd]

theorem find?_eq_some_of_any {α : Type} (l : List α) (p : α → Bool)
    (h : l.any p = true) : ∃ x, l.find? p = some x := by
  induction l with
  | nil => simp at h
  | cons hd tl ih =>
    by_cases h2 : p hd = true
    · exact ⟨hd, by rw [List.find?_cons_of_pos _ h2]⟩
    · simp only [List.any_cons, Bool.or_eq_true] at h
      rcases h with h | h
      · exact absurd h h2
      · obtain ⟨x, hx⟩ := ih h
        refine ⟨x, ?_⟩
        rw [List.find?_cons_of_neg _ (by simpa using h2)]
        exact hx

theorem insert_staging (c : Column) (values : List (Int × Int))
    (h : c.transaction_marker = true) :
    ((c.insert values).1).vals = c.vals ∧
      ((c.insert values).1).transaction_marker = true := by
  cases h2 : values.find? (fun kv => dContains c.vals kv.1) with
  | some kv => simp [Column.insert, h2, h]
  | none => simp [Column.insert, h2, h]

theorem deleteKey_marker (c : Column) (k : Int) :
    (c.deleteKey k).transaction_marker = c.transaction_marker := by
  simp only [Column.deleteKey]
  split
  · split
    · rfl
    · split <;> rfl
  · split <;> rfl

theorem deleteKey_staging (c : Column) (k : Int) (h : c.transaction_marker = true) :
    (c.deleteKey k).vals = c.vals := by
  simp only [Column.deleteKey, h, if_true]
  split
  · rfl
  · split <;> rfl

theorem delete_staging (c : Column) (keys : List Int) (h : c.transaction_marker = true) :
    (c.delete keys).vals = c.vals ∧ (c.delete keys).transaction_marker = true := by
  induction keys generalizing c with
  | nil => exact ⟨rfl, h⟩
  | cons k rest ih =>
    have h2 : (c.deleteKey k).transaction_marker = true := by
      rw [deleteKey_marker]
      exact h
    have h3 := ih (c.deleteKey k) h2
    simp only [Column.delete, List.foldl_cons] at h3 ⊢
    exact ⟨h3.1.trans (deleteKey_staging c k h), h3.2⟩

theorem step_staging (c : Column) (op : Op) (hop : op.isStaging = true)
    (h : c.transaction_marker = true) :
    (c.step op).vals = c.vals ∧ (c.step op).transaction_marker = true := by
  cases op with
  | insert values => exact insert_staging c values h
  | delete keys => exact delete_staging c keys h
  | transaction => simp [Op.isStaging] at hop
  | rollback => simp [Op.isStaging] at hop
  | commit => simp [Op.isStaging] at hop

theorem runOps_staging (c : Column) (ops : List Op)
    (hops : ops.all Op.isStaging = true) (hm : c.transaction_marker = true) :
    (runOps c ops).vals = c.vals ∧ (runOps c ops).transaction_marker = true := by
  induction ops generalizing c with
  | nil => exact ⟨rfl, hm⟩
  | cons op rest ih =>
    simp only [List.all_cons, Bool.and_eq_true] at hops
    have h2 := step_staging c op hops.1 hm
    have h3 := ih (c.step op) hops.2 h2.2
    simp only [runOps, List.foldl_cons] at h3 ⊢
    exact ⟨h3.1.trans h2.1, h3.2⟩

theorem insert_transInv (c : Column) (values : List (Int × Int)) (h : TransInv c) :
    TransInv ((c.insert values).1) := by
  cases h2 : values.find? (fun kv => dContains c.vals kv.1) with
  | some kv => simpa [Column.insert, h2] using h
  | none =>
    cases h3 : c.transaction_marker with
    | true =>
      intro h4
      simp [Column.insert, h2, h3] at h4
    | false =>
      intro h4
      simp only [Column.insert, h2, h3, Bool.false_eq_true, if_false]
      exact h h3

theorem deleteKey_transInv (c : Column) (k : Int) (h : TransInv c) :
    TransInv (c.deleteKey k) := by
  intro h2
  rw [deleteKey_marker] at h2
  have h3 := h h2
  simp only [Column.deleteKey, h2, Bool.false_eq_true, if_false]
  split
  · exact h3
  · exact h3

theorem delete_transInv (c : Column) (keys : List Int) (h : TransInv c) :
    TransInv (c.delete keys) := by
  induction keys generalizing c with
  | nil => exact h
  | cons k rest ih =>
    have h2 := ih (c.deleteKey k) (deleteKey_transInv c k h)
    simpa [Column.delete, List.foldl_cons] using h2

theorem commit_transInv (c : Column) (h : TransInv c) : TransInv ((c.commit).1) := by
  cases h2 : popMany (dUpdate c.vals c.trans_dict) c.to_del with
  | mk vals2 err =>
    cases err with
    | some e =>
      intro h3
      simp only [Column.commit, h2] at h3 ⊢
      exact h h3
    | none =>
      intro h3
      simp [Column.commit, h2]

theorem step_transInv (c : Column) (op : Op) (h : TransInv c) : TransInv (c.step op) := by
  cases op with
  | insert values => exact insert_transInv c values h
  | delete keys => exact delete_transInv c keys h
  | transaction =>
    intro h2
    simp [Column.step, Column.transaction] at h2
  | rollback =>
    intro h2
    exact ⟨rfl, rfl⟩
  | commit => exact commit_transInv c h

theorem runOps_transInv (c : Column) (ops : List Op) (h : TransInv c) :
    TransInv (runOps c ops) := by
  induction ops generalizing c with
  | nil => exact h
  | cons op rest ih =>
    have h2 := ih (c.step op) (step_transInv c op h)
    simpa [runOps, List.foldl_cons] using h2

/-- C1: if some key of the insert batch is already committed, Column.insert
raises OverwriteNotAllowed naming an offending key of the batch that is
already committed, and returns the Column state completely unchanged: the
whole batch is validated before any mutation is applied, so no partial
mutation of committed, the staging buffers or the transaction flag occurs. -/
theorem insert_overwrite_checked_atomic (c : Column) (values : List (Int × Int))
    (h : values.any (fun kv => dContains c.vals kv.1) = true) :
    (c.insert values).1 = c ∧
      (match (c.insert values).2 with
       | some (PyError.overwriteNotAllowed k) =>
           dContains c.vals k = true ∧ k ∈ values.map Prod.fst
       | _ => False) := by
  obtain ⟨kv, hkv⟩ := find?_eq_some_of_any values _ h
  have h2 := List.find?_some hkv
  have h3 := List.mem_of_find?_eq_some hkv
  simp only [Column.insert, hkv]
  exact ⟨trivial, h2, List.mem_map_of_mem Prod.fst h3⟩

def c1col : Column :=
  runOps (Column.init "temperature") [Op.insert [(10, 10), (20, 11)]]

/-- Witness for C1: inserting a batch whose key 10 is already committed. -/
theorem insert_overwrite_checked_atomic_witness :
    ([((10 : Int), (20 : Int))] : List (Int × Int)).any
        (fun kv => dContains c1col.vals kv.1) = true ∧
      (c1col.insert [(10, 20)]).1 = c1col ∧
      dContains c1col.vals 10 = true ∧
      (10 : Int) ∈ ([((10 : Int), (20 : Int))] : List (Int × Int)).map Prod.fst := by
  refine ⟨by decide, ?_, ?_⟩
  · exact (insert_overwrite_checked_atomic c1col [(10, 20)] (by decide)).1
  · exact (insert_overwrite_checked_atomic c1col [(10, 20)] (by decide)).2

/-- C3: after opening a transaction and staging any sequence of inserts and
deletes, rollback leaves the committed dict exactly as it was before the
transaction began, clears both staging buffers, and drops the flag. -/
theorem rollback_restores_committed (c : Column) (ops : List Op)
    (hops : ops.all Op.isStaging = true) :
    (Column.rollback (runOps (c.transaction) ops)).vals = c.vals ∧
      (Column.rollback (runOps (c.transaction) ops)).trans_dict = [] ∧
      (Column.rollback (runOps (c.transaction) ops)).to_del = [] ∧
      (Column.rollback (runOps (c.transaction) ops)).transaction_marker = false := by
  have h := runOps_staging (c.transaction) ops hops rfl
  exact ⟨h.1, rfl, rfl, rfl⟩

def c3col : Column :=
  runOps (Column.init "temperature") [Op.insert [(10, 10), (20, 11)]]

def c3ops : List Op := [Op.insert [(40, 19), (50, 21)], Op.delete [10]]

/-- Witness for C3: stage an insert and a delete, then roll back. -/
theorem rollback_restores_committed_witness :
    c3ops.all Op.isStaging = true ∧
      ((Column.rollback (runOps (c3col.transaction) c3ops)).vals = c3col.vals ∧
        (Column.rollback (runOps (c3col.transaction) c3ops)).trans_dict = [] ∧
        (Column.rollback (runOps (c3col.transaction) c3ops)).to_del = [] ∧
        (Column.rollback (runOps (c3col.transaction) c3ops)).transaction_marker = false) :=
  ⟨by decide, rollback_restores_committed c3col c3ops (by decide)⟩

/-- C4: mean reads only the committed dict, so after opening a transaction
and staging any sequence of inserts and deletes, mean is unchanged from its
value immediately before the transaction began (stated for a non-empty
committed dict, where the mean is defined). -/
theorem mean_reads_committed_only (c : Column) (ops : List Op)
    (hops : ops.all Op.isStaging = true) (_hne : c.vals ≠ []) :
    Column.mean (runOps (c.transaction) ops) = Column.mean c := by
  have h := runOps_staging (c.transaction) ops hops rfl
  have h2 : (runOps (c.transaction) ops).vals = c.vals := h.1
  simp [Column.mean, h2]

def c4col : Column :=
  runOps (Column.init "temperature") [Op.insert [(10, 10), (20, 11), (30, 9)]]

def c4ops : List Op := [Op.insert [(40, 19), (50, 21)], Op.delete [10]]

/-- Witness for C4: staged inserts and deletes leave the mean unchanged. -/
theorem mean_reads_committed_only_witness :
    c4ops.all Op.isStaging = true ∧ c4col.vals ≠ [] ∧
      Column.mean (runOps (c4col.transaction) c4ops) = Column.mean c4col :=
  ⟨by decide, by decide, mean_reads_committed_only c4col c4ops (by decide) (by decide)⟩

def c5col : Column :=
  runOps (Column.init "temperature")
    [Op.insert [(10, 10)], Op.transaction, Op.delete [10], Op.delete [10]]

/-- C5: evaluation of the code at the failing input for the totality claim.
Deleting the committed key 10 twice during one transaction appends it twice
to to_del, and commit then raises KeyError on the second pop: commit is not
total on reachable states, contradicting the claim. -/
theorem commit_raises_after_repeated_delete :
    c5col.to_del = [10, 10] ∧ (Column.commit c5col).2 = some (PyError.keyError 10) := by
  decide

/-- C7: inserting, during a transaction, a key that is not committed succeeds
(even when the key is already staged) and overwrites the staged value: the
overwrite check is performed only against the committed dict. -/
theorem insert_overwrites_staged (c : Column) (k v : Int)
    (hm : c.transaction_marker = true)
    (_hs : dContains c.trans_dict k = true)
    (hv : dContains c.vals k = false) :
    (c.insert [(k, v)]).2 = none ∧
      dLookup ((c.insert [(k, v)]).1).trans_dict k = some v := by
  have h2 : ([(k, v)] : List (Int × Int)).find? (fun kv => dContains c.vals kv.1) = none := by
    rw [List.find?_cons_of_neg _ (by simpa using hv)]
    rfl
  simp only [Column.insert, h2, hm, if_true]
  refine ⟨trivial, ?_⟩
  have h3 : dUpdate c.trans_dict [(k, v)] = dSet c.trans_dict k v := rfl
  simp only [h3]
  exact dLookup_dSet_self c.trans_dict k v

def c7col : Column :=
  runOps (Column.init "temperature") [Op.transaction, Op.insert [(5, 1)]]

/-- Witness for C7: re-insert the staged, uncommitted key 5. -/
theorem insert_overwrites_staged_witness :
    c7col.transaction_marker = true ∧ dContains c7col.trans_dict 5 = true ∧
      dContains c7col.vals 5 = false ∧
      (c7col.insert [(5, 2)]).2 = none ∧
      dLookup ((c7col.insert [(5, 2)]).1).trans_dict 5 = some 2 :=
  ⟨by decide, by decide, by decide,
    (insert_overwrites_staged c7col 5 2 (by decide) (by decide) (by decide)).1,
    (insert_overwrites_staged c7col 5 2 (by decide) (by decide) (by decide)).2⟩

/-- C8: along every operation sequence from a fresh Column, whenever the
transaction flag is off both staging buffers are empty. -/
theorem idle_buffers_empty (name : String) (ops : List Op)
    (h : (runOps (Column.init name) ops).transaction_marker = false) :
    (runOps (Column.init name) ops).trans_dict = [] ∧
      (runOps (Column.init name) ops).to_del = [] :=
  runOps_transInv (Column.init name) ops (fun _ => ⟨rfl, rfl⟩) h

def c8ops : List Op :=
  [Op.transaction, Op.insert [(1, 2)], Op.delete [1], Op.commit,
    Op.transaction, Op.insert [(3, 4)], Op.rollback]

/-- Witness for C8: a run that opens and closes transactions both ways. -/
theorem idle_buffers_empty_witness :
    (runOps (Column.init "temperature") c8ops).transaction_marker = false ∧
      ((runOps (Column.init "temperature") c8ops).trans_dict = [] ∧
        (runOps (Column.init "temperature") c8ops).to_del = []) :=
  ⟨by decide, idle_buffers_empty "temperature" c8ops (by decide)⟩

def c2col : Column :=
  runOps (Column.init "temperature")
    [Op.insert [(10, 10), (20, 11)], Op.transaction, Op.insert [(30, 5)],
      Op.delete [10], Op.delete [10]]

/-- C2 counterexample: a reachable Column in a transaction with a staged
insert and staged deletes on which commit raises KeyError halfway through the
pop loop, leaving the transaction flag set and to_del non-empty, so commit
does not always clear the staging buffers and the flag as the claim states:
the second staged delete of key 10 put 10 into to_del twice. -/
theorem commit_partial_on_duplicate_staged_delete :
    c2col.transaction_marker = true ∧ c2col.trans_dict ≠ [] ∧ c2col.to_del ≠ [] ∧
      (Column.commit c2col).1.transaction_marker = true ∧
      (Column.commit c2col).1.to_del ≠ [] ∧
      (Column.commit c2col).2 = some (PyError.keyError 10) := by
  decide

/-- C2 amended: provided no key was staged for deletion more than once (to_del
has no duplicate entries; delete only stages committed keys), commit succeeds
and applies exactly the net staged effect: trans_dict is merged into the
committed dict first, overwriting without re-running the overwrite check,
then every key of to_del is removed; both staging buffers end empty and the
transaction flag ends false. -/
theorem commit_applies_net_staged_effect (c : Column)
    (_hm : c.transaction_marker = true)
    (hv : (dKeys c.vals).Nodup)
    (hdel : c.to_del.Nodup)
    (hmem : ∀ k ∈ c.to_del, dContains c.vals k = true) :
    Column.commit c =
      ({ name := c.name, vals := removeKeys (dUpdate c.vals c.trans_dict) c.to_del,
         transaction_marker := false, trans_dict := [], to_del := [] }, none) := by
  have h2 : ∀ k ∈ c.to_del, dContains (dUpdate c.vals c.trans_dict) k = true :=
    fun k hk => dContains_dUpdate_of c.vals c.trans_dict k (hmem k hk)
  have h3 := popMany_eq (dUpdate c.vals c.trans_dict) c.to_del
    (dKeys_nodup_dUpdate c.vals c.trans_dict hv) hdel h2
  simp [Column.commit, h3]

def c2net : Column :=
  runOps (Column.init "temperature")
    [Op.insert [(1, 2), (3, 4)], Op.transaction, Op.insert [(5, 6)], Op.delete [3]]

/-- Witness for the amended C2: one staged insert and one staged delete. -/
theorem commit_applies_net_staged_effect_witness :
    Column.commit c2net =
      ({ name := c2net.name,
         vals := removeKeys (dUpdate c2net.vals c2net.trans_dict) c2net.to_del,
         transaction_marker := false, trans_dict := [], to_del := [] }, none) :=
  commit_applies_net_staged_effect c2net (by decide) (by decide) (by decide) (by decide)

/-- C6: with a transaction open, delete of a key removes it from trans_dict
when it is staged there, otherwise appends it to to_del when it is committed,
and otherwise is silently ignored; moreover a key that is not committed (in
particular one only staged as an insert and then deleted) is not committed
after the following commit either, whether or not that commit raises. -/
theorem delete_in_transaction_semantics (c : Column) (k : Int)
    (hm : c.transaction_marker = true)
    (hnd : (dKeys c.trans_dict).Nodup) :
    Column.delete c [k] =
      (if dContains c.trans_dict k then { c with trans_dict := dRemove c.trans_dict k }
       else if dContains c.vals k then { c with to_del := c.to_del ++ [k] }
       else c) ∧
      (dContains c.vals k = false →
        dContains ((Column.commit (Column.delete c [k])).1).vals k = false) := by
  constructor
  · simp [Column.delete, Column.deleteKey, hm]
  · intro hv
    have hvals : (Column.delete c [k]).vals = c.vals := by
      simp only [Column.delete, List.foldl_cons, List.foldl_nil]
      exact deleteKey_staging c k hm
    have htd : dContains (Column.delete c [k]).trans_dict k = false := by
      simp only [Column.delete, List.foldl_cons, List.foldl_nil, Column.deleteKey, hm, if_true]
      by_cases h2 : dContains c.trans_dict k = true
      · simp only [h2, if_true]
        rw [dContains_eq_false_iff]
        exact dLookup_dRemove_self c.trans_dict k hnd
      · have h3 : dContains c.trans_dict k = false := by simpa using h2
        simp only [h3, Bool.false_eq_true, if_false]
        split
        · exact h3
        · exact h3
    have hk2 : k ∉ dKeys (Column.delete c [k]).trans_dict :=
      not_mem_dKeys_of_dLookup_eq_none _ k ((dContains_eq_false_iff _ k).mp htd)
    have h4 : dContains
        (dUpdate (Column.delete c [k]).vals (Column.delete c [k]).trans_dict) k = false := by
      apply dContains_dUpdate_false
      · rw [hvals]
        exact hv
      · exact hk2
    have h5 := dContains_popMany_false
      (dUpdate (Column.delete c [k]).vals (Column.delete c [k]).trans_dict)
      (Column.delete c [k]).to_del k h4
    cases h6 : popMany
        (dUpdate (Column.delete c [k]).vals (Column.delete c [k]).trans_dict)
        (Column.delete c [k]).to_del with
    | mk vals2 err =>
      rw [h6] at h5
      cases err with
      | some e =>
        simp only [Column.commit, h6]
        exact h5
      | none =>
        simp only [Column.commit, h6]
        exact h5

def c6col : Column :=
  runOps (Column.init "temperature")
    [Op.insert [(1, 2)], Op.transaction, Op.insert [(5, 1)]]

/-- Witness for C6: key 5 is staged, not committed; after delete and commit
it is absent from the committed dict. -/
theorem delete_in_transaction_semantics_witness :
    (Column.delete c6col [5] =
      (if dContains c6col.trans_dict 5 then
        { c6col with trans_dict := dRemove c6col.trans_dict 5 }
       else if dContains c6col.vals 5 then { c6col with to_del := c6col.to_del ++ [5] }
       else c6col)) ∧
      dContains c6col.vals 5 = false ∧
      dContains ((Column.commit (Column.delete c6col [5])).1).vals 5 = false :=
  ⟨(delete_in_transaction_semantics c6col 5 (by decide) (by decide)).1, by decide,
    (delete_in_transaction_semantics c6col 5 (by decide) (by decide)).2 (by decide)⟩

theorem dLookup_init_fold (tables : List String) (d0 : List (String × Attr)) (a : String) :
    dLookup (tables.foldl (fun d t => dSet d t (Attr.col (Column.init t))) d0) a =
      (if a ∈ tables then some (Attr.col (Column.init a)) else dLookup d0 a) := by
  induction tables generalizing d0 with
  | nil => simp
  | cons t rest ih =>
    simp only [List.foldl_cons]
    rw [ih]
    by_cases h : a ∈ rest
    · simp [h, List.mem_cons]
    · by_cases h2 : a = t
      · subst h2
        simp [h, dLookup_dSet_self]
      · simp [h, h2, List.mem_cons, dLookup_dSet_ne d0 t a (Attr.col (Column.init t)) h2]

/-- C9 counterexample: the name tables is not a column name of this database,
yet attribute lookup returns the stored tables attribute instead of failing
with the NoSuchColumn condition: lookup is plain attribute access, and the
instance dict also holds the tables and _vars attributes. -/
theorem lookup_unknown_name_no_error :
    ("tables" ∉ (["a"] : List String)) ∧
      Database.lookup (Database.init ["a"]) "tables" =
        Except.ok (LookupResult.attr (Attr.tables ["a"])) :=
  ⟨by decide, rfl⟩

/-- C9 amended: on a freshly constructed Database, for attribute names
outside the dunder-delimited object protocol, lookup of a name in
table_names returns the owned Column of that name (even when the name
collides with the reserved attributes, which the column overwrites at
construction); lookup of the reserved attribute names tables and _vars
returns the internal tables list and _vars dict; lookup of an inherited
Column method name returns the bound method; and lookup of every other
unknown name fails with the NoSuchColumn condition (AttributeError). -/
theorem lookup_characterization (tables : List String) (a : String)
    (_hd : isDunderName a = false) :
    Database.lookup (Database.init tables) a =
      (if a ∈ tables then Except.ok (LookupResult.attr (Attr.col (Column.init a)))
       else if a = "tables" then Except.ok (LookupResult.attr (Attr.tables tables))
       else if a = "_vars" then Except.ok (LookupResult.attr (Attr.vars []))
       else if a ∈ columnMethodNames then Except.ok (LookupResult.boundMethod a)
       else Except.error (PyError.attributeError a)) := by
  simp only [Database.lookup, Database.init]
  rw [dLookup_init_fold]
  by_cases h : a ∈ tables
  · simp [h]
  · simp only [h, if_false]
    by_cases h2 : a = "tables"
    · subst h2
      have h4 : dLookup (dSet (dSet ([] : List (String × Attr)) "_vars" (Attr.vars []))
          "tables" (Attr.tables tables)) "tables" = some (Attr.tables tables) := by
        rfl
      simp [h4]
    · by_cases h3 : a = "_vars"
      · subst h3
        have h4 : dLookup (dSet (dSet ([] : List (String × Attr)) "_vars" (Attr.vars []))
            "tables" (Attr.vars [])) "_vars" = some (Attr.vars []) := by
          rfl
        simp [dSet, dLookup, h2]
      · have h4 : dLookup (dSet (dSet ([] : List (String × Attr)) "_vars" (Attr.vars []))
            "tables" (Attr.tables tables)) a = none := by
          have h5 : ("_vars" : String) ≠ a := fun he => h3 he.symm
          have h6 : ("tables" : String) ≠ a := fun he => h2 he.symm
          simp [dSet, dLookup, h5, h6]
        simp [h4, h2, h3]

/-- Witness for the amended C9: on a one-column database, the unknown
non-dunder name insert resolves to the inherited bound method, and the
unknown non-dunder name pressure fails with AttributeError. -/
theorem lookup_characterization_witness :
    (isDunderName "insert" = false ∧
      Database.lookup (Database.init ["a"]) "insert" =
        Except.ok (LookupResult.boundMethod "insert")) ∧
      (isDunderName "pressure" = false ∧
        Database.lookup (Database.init ["a"]) "pressure" =
          Except.error (PyError.attributeError "pressure")) := by
  refine ⟨⟨by decide, ?_⟩, ⟨by decide, ?_⟩⟩
  · rw [lookup_characterization ["a"] "insert" (by decide)]
    rfl
  · rw [lookup_characterization ["a"] "pressure" (by decide)]
    rfl

/-- C10 counterexample: converting a fresh Database to its tabular form
changes the Database state: the _vars attribute is updated in place by the
render loop, so render is not read-only on the Database. -/
theorem render_mutates_database :
    (Database.render (Database.init ["a"])).1 ≠ Database.init ["a"] := by
  decide

theorem projectVars_congr (db db2 : Database) (m : List (String × List (Int × Int)))
    (ts : List String)
    (h : ∀ v ∈ ts, dLookup db2.dict v = dLookup db.dict v) :
    projectVars db2 m ts = projectVars db m ts := by
  induction ts generalizing m with
  | nil => rfl
  | cons t rest ih =>
    simp only [projectVars, List.foldl_cons]
    rw [h t (List.mem_cons_self t rest)]
    exact ih (dSet m t (attrVals (dLookup db.dict t)))
      (fun v hv => h v (List.mem_cons_of_mem t hv))

theorem renderLoop_eq (ts : List String) (db : Database)
    (m : List (String × List (Int × Int)))
    (hv : dLookup db.dict "_vars" = some (Attr.vars m))
    (hcols : ∀ var ∈ ts, isColAttr (dLookup db.dict var) = true) :
    renderLoop db ts =
      ({ dict := dSet db.dict "_vars" (Attr.vars (projectVars db m ts)) }, none) := by
  induction ts generalizing db m with
  | nil =>
    simp only [renderLoop, projectVars, List.foldl_nil]
    rw [dSet_dLookup_self db.dict "_vars" (Attr.vars m) hv]
  | cons var rest ih =>
    have hcol := hcols var (List.mem_cons_self var rest)
    cases hvar : dLookup db.dict var with
    | none =>
      rw [hvar] at hcol
      simp [isColAttr] at hcol
    | some attr =>
      cases attr with
      | vars m2 =>
        rw [hvar] at hcol
        simp [isColAttr] at hcol
      | tables l =>
        rw [hvar] at hcol
        simp [isColAttr] at hcol
      | col cc =>
        have hv2 : dLookup (dSet db.dict "_vars" (Attr.vars (dSet m var cc.vals))) "_vars" =
            some (Attr.vars (dSet m var cc.vals)) :=
          dLookup_dSet_self db.dict "_vars" (Attr.vars (dSet m var cc.vals))
        have hlook : ∀ v2 ∈ rest,
            dLookup (dSet db.dict "_vars" (Attr.vars (dSet m var cc.vals))) v2 =
              dLookup db.dict v2 := by
          intro v2 hv2m
          have h3 := hcols v2 (List.mem_cons_of_mem var hv2m)
          have hne2 : v2 ≠ "_vars" := by
            intro he
            rw [he, hv] at h3
            simp [isColAttr] at h3
          exact dLookup_dSet_ne db.dict "_vars" v2 (Attr.vars (dSet m var cc.vals)) hne2
        have hcols2 : ∀ v2 ∈ rest,
            isColAttr (dLookup
              (dSet db.dict "_vars" (Attr.vars (dSet m var cc.vals))) v2) = true := by
          intro v2 hv2m
          rw [hlook v2 hv2m]
          exact hcols v2 (List.mem_cons_of_mem var hv2m)
        have hstep := ih ⟨dSet db.dict "_vars" (Attr.vars (dSet m var cc.vals))⟩
          (dSet m var cc.vals) hv2 hcols2
        simp only [renderLoop, hv, hvar]
        rw [hstep]
        rw [dSet_dSet db.dict "_vars" (Attr.vars (dSet m var cc.vals))
          (Attr.vars (projectVars ⟨dSet db.dict "_vars" (Attr.vars (dSet m var cc.vals))⟩
            (dSet m var cc.vals) rest))]
        rw [projectVars_congr db ⟨dSet db.dict "_vars" (Attr.vars (dSet m var cc.vals))⟩
          (dSet m var cc.vals) rest hlook]
        have heq3 : projectVars db m (var :: rest) =
            projectVars db (dSet m var cc.vals) rest := by
          simp only [projectVars, List.foldl_cons, hvar, attrVals]
        rw [heq3]

/-- C10 amended: when the Database is well-formed (the tables attribute lists
its column names, _vars holds a dict, and every listed name is bound to a
Column), render succeeds and its only state change is to the _vars attribute,
which is set to the name-to-committed-values projection of the columns; every
other attribute, in particular every owned Column and the tables list, is
unchanged, and the data handed to the external formatter is read only from
the committed dicts. -/
theorem render_updates_only_vars (db : Database) (ts : List String)
    (hts : dLookup db.dict "tables" = some (Attr.tables ts))
    (hv : isVarsAttr (dLookup db.dict "_vars") = true)
    (hcols : ∀ var ∈ ts, isColAttr (dLookup db.dict var) = true) :
    Database.render db =
      ({ dict := dSet db.dict "_vars"
          (Attr.vars (projectVars db (getVars (dLookup db.dict "_vars")) ts)) }, none) := by
  cases hv2 : dLookup db.dict "_vars" with
  | none =>
    rw [hv2] at hv
    simp [isVarsAttr] at hv
  | some attr =>
    cases attr with
    | vars m =>
      simp only [Database.render, hts]
      rw [renderLoop_eq ts db m hv2 hcols]
      rfl
    | tables l =>
      rw [hv2] at hv
      simp [isVarsAttr] at hv
    | col cc =>
      rw [hv2] at hv
      simp [isVarsAttr] at hv

/-- Witness for the amended C10 on a fresh one-column database. -/
theorem render_updates_only_vars_witness :
    Database.render (Database.init ["a"]) =
      ({ dict := dSet (Database.init ["a"]).dict "_vars"
          (Attr.vars (projectVars (Database.init ["a"])
            (getVars (dLookup (Database.init ["a"]).dict "_vars")) ["a"])) }, none) :=
  render_updates_only_vars (Database.init ["a"]) ["a"] (by decide) (by decide) (by decide)

end Transakce
